import Mathlib

/-!
Shallow embedding, over exact rational arithmetic, of the PCA
explained-variance core of the notebook `Activity-dr_pca.ipynb`:
the variance-profile transform `percvar`, the component-count selector
`perck`, and the covariance / scaled-squared-singular-value glue.
NumPy float division by zero (in `percvar` it can only be `0/0`, i.e.
NaN) is modelled as `none : Option ℚ`.
-/

/-- Entrywise absolute value: models `np.abs(v)`. -/
def absList (v : List ℚ) : List ℚ := v.map (fun x => |x|)

/-- Models `np.sort(v)[::-1]`: sort ascending, then reverse the order. -/
def sortDesc (v : List ℚ) : List ℚ := (List.insertionSort (fun a b => a ≤ b) v).reverse

/-- Inclusive running sums, carrying the sum `acc` of the part already seen. -/
def cumsumQAux (acc : ℚ) : List ℚ → List ℚ
  | [] => []
  | x :: xs => (acc + x) :: cumsumQAux (acc + x) xs

/-- Models `np.cumsum` on finite values. -/
def cumsumQ (l : List ℚ) : List ℚ := cumsumQAux 0 l

/-- Addition with NaN propagation (`none` is NaN). -/
def optAdd : Option ℚ → Option ℚ → Option ℚ
  | some a, some b => some (a + b)
  | _, _ => none

/-- Inclusive running sums with NaN propagation, carrying the running sum. -/
def cumsumAux (acc : Option ℚ) : List (Option ℚ) → List (Option ℚ)
  | [] => []
  | x :: xs => optAdd acc x :: cumsumAux (optAdd acc x) xs

/-- Models `np.cumsum` with NaN propagation. -/
def cumsumO (l : List (Option ℚ)) : List (Option ℚ) := cumsumAux (some 0) l

/-- NumPy float division as used in `percvar`: a finite quotient when the
divisor is nonzero, and a non-finite result when it is zero (in `percvar`
the numerator is then also zero, so this is `0/0 = NaN`), modelled `none`. -/
def npDiv (a b : ℚ) : Option ℚ := if b = 0 then none else some (a / b)

/-- `percvar` from the notebook:
`s = np.sort(np.abs(v))`; `s = s[::-1]`; `s = s/np.sum(s)`;
`return s, np.cumsum(s)`. -/
def percvar (v : List ℚ) : List (Option ℚ) × List (Option ℚ) :=
  let s := sortDesc (absList v)
  let t := s.sum
  let p := s.map (fun x => npDiv x t)
  (p, cumsumO p)

/-- `percvar` in exact rational arithmetic; when the normalizing total is
nonzero it agrees with `percvar` entrywise under `some`
(see `percvar_eq_percvarQ`). -/
def percvarQ (v : List ℚ) : List ℚ × List ℚ :=
  let s := sortDesc (absList v)
  let t := s.sum
  let p := s.map (fun x => x / t)
  (p, cumsumQ p)

/-- The loop of `perck`, carrying the index `i` of the current element;
`count` stays `0` unless the loop breaks at a satisfying element. -/
def perckGo (p : ℚ) (i : ℕ) : List ℚ → ℕ
  | [] => 0
  | x :: xs => if p ≤ x then i else perckGo p (i + 1) xs

/-- `perck` from the notebook: scan `s` in index order and return the first
index `i` with `s[i] >= p`; if no index satisfies it, the initial
`count = 0` is returned. -/
def perck (s : List ℚ) (p : ℚ) : ℕ := perckGo p 0 s

/-- Column `j` of a row-major rectangular matrix. -/
def matCol (m : List (List ℚ)) (j : ℕ) : List ℚ := m.map (fun r => r.getD j 0)

/-- Transpose of a row-major rectangular matrix: models `.T`. -/
def matT (m : List (List ℚ)) : List (List ℚ) :=
  (List.range (m.headD []).length).map (matCol m)

/-- Dot product of two rational vectors. -/
def dotQ (a b : List ℚ) : ℚ := (List.zipWith (fun x y => x * y) a b).sum

/-- Matrix product `a.dot(b)` on row-major lists of rows. -/
def matMul (a b : List (List ℚ)) : List (List ℚ) :=
  a.map (fun r => (matT b).map (fun c => dotQ r c))

/-- `X_cov = X_sm.T.dot(X_sm) / (X_sm.shape[0] - 1)` from the notebook. -/
def covMatrix (x : List (List ℚ)) : List (List ℚ) :=
  (matMul (matT x) x).map (fun r => r.map (fun e => e / ((x.length : ℚ) - 1)))

/-- `s**2/(X_sm.shape[0]-1)` from the notebook SVD cell: the scaled squared
singular values, `n` being the number of rows of the centered matrix. -/
def scaledSqSingular (n : ℕ) (s : List ℚ) : List ℚ :=
  s.map (fun x => x ^ 2 / ((n : ℚ) - 1))

/-- Column sums of a row-major matrix (all zero iff the matrix is centered). -/
def colSums (x : List (List ℚ)) : List ℚ := (matT x).map List.sum

/-- The wine-scale eigenvalue list of the spec scenario, as exact rationals. -/
def wineEig : List ℚ :=
  [4732/1000, 2511/1000, 1454/1000, 924/1000, 858/1000, 645/1000, 554/1000,
   104/1000, 350/1000, 170/1000, 291/1000, 227/1000, 252/1000]

/-- A concrete centered matrix (5 rows, 2 columns): orthogonal columns of
squared norms 4 and 1, hence singular values 2 and 1. -/
def xNeg : List (List ℚ) :=
  [[1, 1/2], [1, -1/2], [-1, 1/2], [-1, -1/2], [0, 0]]

/-! ### Helper lemmas about the selector -/

theorem perckGo_shift (p : ℚ) : ∀ (l : List ℚ), (∃ y ∈ l, p ≤ y) →
    ∀ i, perckGo p (i + 1) l = perckGo p i l + 1 := by
  intro l
  induction l with
  | nil => rintro ⟨y, hy, -⟩; cases hy
  | cons x xs ih =>
    rintro ⟨y, hy, hpy⟩ i
    by_cases hx : p ≤ x
    · simp [perckGo, hx]
    · have hyxs : y ∈ xs := by
        rcases List.mem_cons.mp hy with h | h
        · exact absurd (h ▸ hpy) hx
        · exact h
      simp only [perckGo, if_neg hx]
      exact ih ⟨y, hyxs, hpy⟩ (i + 1)

theorem perckGo_of_no_hit (p : ℚ) : ∀ (l : List ℚ), (∀ x ∈ l, ¬ p ≤ x) →
    ∀ i, perckGo p i l = 0 := by
  intro l
  induction l with
  | nil => intro _ i; rfl
  | cons x xs ih =>
    intro h i
    have hx : ¬ p ≤ x := h x (List.mem_cons_self x xs)
    simp only [perckGo, if_neg hx]
    exact ih (fun y hy => h y (List.mem_cons_of_mem x hy)) (i + 1)

theorem perck_cons_of_le {p x : ℚ} (xs : List ℚ) (h : p ≤ x) :
    perck (x :: xs) p = 0 := by
  simp [perck, perckGo, h]

theorem perck_cons_of_not_le {p x : ℚ} {xs : List ℚ} (hx : ¬ p ≤ x)
    (hhit : ∃ y ∈ xs, p ≤ y) : perck (x :: xs) p = perck xs p + 1 := by
  simp only [perck, perckGo, if_neg hx]
  exact perckGo_shift p xs hhit 0

/-! ### Claims about the selector `perck` -/

/-- C1: for every cumulative vector `pv` and threshold `p` such that some
entry of `pv` is at least `p`, `perck pv p` is the smallest zero-based index
`i` with `pv[i] ≥ p`, and the returned value is that raw index itself, not
index + 1 (a threshold met by the first component yields 0). -/
theorem C1_perck_returns_first_raw_index (pv : List ℚ) (p : ℚ)
    (h : ∃ x ∈ pv, p ≤ x) :
    perck pv p < pv.length ∧ p ≤ pv.getD (perck pv p) 0 ∧
      ∀ j < perck pv p, pv.getD j 0 < p := by
  induction pv with
  | nil => rcases h with ⟨x, hx, -⟩; cases hx
  | cons x xs ih =>
    by_cases hx : p ≤ x
    · rw [perck_cons_of_le xs hx]
      exact ⟨Nat.succ_pos _, hx, fun j hj => absurd hj (Nat.not_lt_zero j)⟩
    · have hhit : ∃ y ∈ xs, p ≤ y := by
        rcases h with ⟨y, hy, hpy⟩
        rcases List.mem_cons.mp hy with rfl | hmem
        · exact absurd hpy hx
        · exact ⟨y, hmem, hpy⟩
      rw [perck_cons_of_not_le hx hhit]
      obtain ⟨h1, h2, h3⟩ := ih hhit
      refine ⟨by simpa using Nat.succ_lt_succ h1, by simpa using h2, ?_⟩
      intro j hj
      cases j with
      | zero => simpa using not_le.mp hx
      | succ k => simpa using h3 k (Nat.lt_of_succ_lt_succ hj)

/-- Witness for C1 at `pv = [1/2, 1]`, `p = 3/4`: the selector returns raw
index 1 (the first entry at least 3/4), every earlier entry being below. -/
theorem C1_witness :
    (∃ x ∈ [(1:ℚ)/2, 1], (3:ℚ)/4 ≤ x) ∧
      (perck [(1:ℚ)/2, 1] (3/4) < ([(1:ℚ)/2, 1]).length ∧
        (3:ℚ)/4 ≤ ([(1:ℚ)/2, 1]).getD (perck [(1:ℚ)/2, 1] (3/4)) 0 ∧
        ∀ j < perck [(1:ℚ)/2, 1] (3/4), ([(1:ℚ)/2, 1]).getD j 0 < 3/4) :=
  ⟨⟨1, by norm_num⟩,
    C1_perck_returns_first_raw_index [(1:ℚ)/2, 1] (3/4) ⟨1, by norm_num⟩⟩

/-- C3 counterexample: with threshold 9/10, the unsatisfiable input `[1/2]`
makes `perck` return 0, the very value it returns on the satisfiable input
`[19/20]` where the first component already suffices — no error, no option,
no sentinel, just the default index. -/
theorem C3_counterexample :
    perck [(1:ℚ)/2] (9/10) = 0 ∧ perck [(19:ℚ)/20] (9/10) = 0 ∧
      ¬ ((9:ℚ)/10 ≤ 1/2) ∧ (9:ℚ)/10 ≤ 19/20 := by
  refine ⟨?_, ?_, by norm_num, by norm_num⟩ <;> norm_num [perck, perckGo]

/-- C3 amended: when no entry of `pv` reaches the threshold `p`, `perck`
returns the plain default index 0 — the same value as a successful selection
at the first component — rather than any distinct sentinel or error. -/
theorem C3_perck_unsatisfiable_returns_default_zero (pv : List ℚ) (p : ℚ)
    (h : ∀ x ∈ pv, ¬ p ≤ x) : perck pv p = 0 :=
  perckGo_of_no_hit p pv h 0

/-- Witness for the amended C3 at `pv = [1/2]`, `p = 9/10`. -/
theorem C3_witness :
    (∀ x ∈ [(1:ℚ)/2], ¬ (9:ℚ)/10 ≤ x) ∧ perck [(1:ℚ)/2] (9/10) = 0 :=
  ⟨by norm_num, C3_perck_unsatisfiable_returns_default_zero [(1:ℚ)/2] (9/10)
    (by norm_num)⟩

/-- C4 counterexample: on the genuine cumulative vector `[1/2, 1]` (produced
by `percvarQ [1, 1]`), thresholds `p1 = 8/10 ≤ p2 = 3/2` give
`perck = 1` and `perck = 0` respectively: the selector is not monotone when
the larger threshold is unachievable. -/
theorem C4_counterexample :
    (8:ℚ)/10 ≤ 3/2 ∧ (percvarQ [(1:ℚ), 1]).2 = [1/2, 1] ∧
      ¬ (perck [(1:ℚ)/2, 1] (8/10) ≤ perck [(1:ℚ)/2, 1] (3/2)) := by
  refine ⟨by norm_num, ?_, ?_⟩
  · norm_num [percvarQ, sortDesc, absList, cumsumQ, cumsumQAux,
      List.insertionSort, List.orderedInsert]
  · norm_num [perck, perckGo]

/-- C4 amended: the selector is monotone in the threshold provided the
larger threshold is achievable: if `p1 ≤ p2` and some entry of `pv` is at
least `p2`, then `perck pv p1 ≤ perck pv p2`. -/
theorem C4_perck_monotone_on_achievable (pv : List ℚ) (p1 p2 : ℚ)
    (h12 : p1 ≤ p2) (h2 : ∃ x ∈ pv, p2 ≤ x) :
    perck pv p1 ≤ perck pv p2 := by
  induction pv with
  | nil => rcases h2 with ⟨x, hx, -⟩; cases hx
  | cons x xs ih =>
    by_cases hx1 : p1 ≤ x
    · rw [perck_cons_of_le xs hx1]; exact Nat.zero_le _
    · have hx2 : ¬ p2 ≤ x := fun h => hx1 (h12.trans h)
      have hhit2 : ∃ y ∈ xs, p2 ≤ y := by
        rcases h2 with ⟨y, hy, hpy⟩
        rcases List.mem_cons.mp hy with rfl | hmem
        · exact absurd hpy hx2
        · exact ⟨y, hmem, hpy⟩
      have hhit1 : ∃ y ∈ xs, p1 ≤ y := by
        rcases hhit2 with ⟨y, hy, hpy⟩
        exact ⟨y, hy, h12.trans hpy⟩
      rw [perck_cons_of_not_le hx1 hhit1, perck_cons_of_not_le hx2 hhit2]
      exact Nat.succ_le_succ (ih hhit2)

/-- Witness for the amended C4 at `pv = [1/2, 1]`, `p1 = 6/10`, `p2 = 8/10`. -/
theorem C4_witness :
    ((6:ℚ)/10 ≤ 8/10 ∧ ∃ x ∈ [(1:ℚ)/2, 1], (8:ℚ)/10 ≤ x) ∧
      perck [(1:ℚ)/2, 1] (6/10) ≤ perck [(1:ℚ)/2, 1] (8/10) :=
  ⟨⟨by norm_num, ⟨1, by norm_num⟩⟩,
    C4_perck_monotone_on_achievable [(1:ℚ)/2, 1] (6/10) (8/10) (by norm_num)
      ⟨1, by norm_num⟩⟩

/-- C10: `perck` on the empty cumulative vector returns 0 for every
threshold, without any failure — the same value it returns when the first
component already meets the threshold, so the two situations are
indistinguishable at the interface. -/
theorem C10_perck_nil_returns_zero (p x : ℚ) (xs : List ℚ) (h : p ≤ x) :
    perck ([] : List ℚ) p = 0 ∧ perck (x :: xs) p = 0 :=
  ⟨rfl, perck_cons_of_le xs h⟩

/-- Witness for C10 at `p = 1/2` against the successful selection on `[1]`. -/
theorem C10_witness :
    ((1:ℚ)/2 ≤ 1) ∧
      (perck ([] : List ℚ) (1/2) = 0 ∧ perck [(1:ℚ)] (1/2) = 0) :=
  ⟨by norm_num, C10_perck_nil_returns_zero (1/2) 1 [] (by norm_num)⟩

/-! ### Helper lemmas about the profile transform -/

theorem sortDesc_perm (l : List ℚ) : (sortDesc l).Perm l :=
  (List.reverse_perm _).trans (List.perm_insertionSort _ l)

theorem sortDesc_sorted (l : List ℚ) :
    List.Sorted (fun a b => a ≥ b) (sortDesc l) := by
  rw [sortDesc, List.Sorted, List.pairwise_reverse]
  exact (List.sorted_insertionSort (fun a b => a ≤ b) l).imp (fun h => h)

theorem sortDesc_sum (l : List ℚ) : (sortDesc l).sum = l.sum :=
  (sortDesc_perm l).sum_eq

theorem sortDesc_length (l : List ℚ) : (sortDesc l).length = l.length :=
  (sortDesc_perm l).length_eq

theorem absList_nonneg (v : List ℚ) : ∀ x ∈ absList v, 0 ≤ x := by
  intro x hx
  rcases List.mem_map.mp hx with ⟨y, -, rfl⟩
  exact abs_nonneg y

theorem sortDesc_absList_nonneg (v : List ℚ) :
    ∀ x ∈ sortDesc (absList v), 0 ≤ x := fun x hx =>
  absList_nonneg v x ((sortDesc_perm (absList v)).mem_iff.mp hx)

theorem total_pos {v : List ℚ} (h : ∃ x ∈ v, x ≠ 0) :
    0 < (sortDesc (absList v)).sum := by
  rw [sortDesc_sum]
  rcases h with ⟨x, hx, hne⟩
  have hmem : |x| ∈ absList v := List.mem_map.mpr ⟨x, hx, rfl⟩
  exact lt_of_lt_of_le (abs_pos.mpr hne)
    (List.single_le_sum (absList_nonneg v) _ hmem)

theorem sum_map_div (l : List ℚ) (t : ℚ) :
    (l.map (fun x => x / t)).sum = l.sum / t := by
  induction l with
  | nil => simp
  | cons x xs ih => simp [ih, add_div]

theorem sum_map_mul (l : List ℚ) (k : ℚ) :
    (l.map (fun x => x * k)).sum = l.sum * k := by
  induction l with
  | nil => simp
  | cons x xs ih => simp [ih, add_mul]

theorem cumsumQAux_sorted_le (l : List ℚ) (hl : ∀ x ∈ l, 0 ≤ x) :
    ∀ acc, List.Sorted (fun a b => a ≤ b) (cumsumQAux acc l) ∧
      ∀ y ∈ cumsumQAux acc l, acc ≤ y := by
  induction l with
  | nil => intro acc; exact ⟨List.sorted_nil, by intro y hy; cases hy⟩
  | cons x xs ih =>
    intro acc
    have hx : 0 ≤ x := hl x (List.mem_cons_self x xs)
    obtain ⟨hs, hge⟩ := ih (fun y hy => hl y (List.mem_cons_of_mem x hy)) (acc + x)
    constructor
    · rw [show cumsumQAux acc (x :: xs) = (acc + x) :: cumsumQAux (acc + x) xs from rfl,
        List.sorted_cons]
      exact ⟨hge, hs⟩
    · intro y hy
      rcases List.mem_cons.mp hy with rfl | hmem
      · linarith
      · linarith [hge y hmem]

theorem cumsumQAux_getLast (l : List ℚ) : l ≠ [] →
    ∀ acc, (cumsumQAux acc l).getLast? = some (acc + l.sum) := by
  induction l with
  | nil => intro h; exact absurd rfl h
  | cons x xs ih =>
    intro _ acc
    cases xs with
    | nil => simp [cumsumQAux]
    | cons y ys =>
      have htail := ih (by simp) (acc + x)
      rw [show cumsumQAux acc (x :: y :: ys) =
          (acc + x) :: (acc + x + y) :: cumsumQAux (acc + x + y) ys from rfl]
      rw [List.getLast?_cons_cons]
      rw [show (acc + x + y) :: cumsumQAux (acc + x + y) ys =
          cumsumQAux (acc + x) (y :: ys) from rfl]
      rw [htail]
      simp only [List.sum_cons, Option.some.injEq]
      ring

theorem cumsumAux_length (l : List (Option ℚ)) :
    ∀ acc, (cumsumAux acc l).length = l.length := by
  induction l with
  | nil => intro acc; rfl
  | cons x xs ih =>
    intro acc
    rw [show cumsumAux acc (x :: xs) =
        optAdd acc x :: cumsumAux (optAdd acc x) xs from rfl]
    simp [ih]

theorem cumsumAux_some (l : List ℚ) :
    ∀ acc, cumsumAux (some acc) (l.map some) = (cumsumQAux acc l).map some := by
  induction l with
  | nil => intro acc; rfl
  | cons x xs ih =>
    intro acc
    rw [show (x :: xs).map some = some x :: xs.map some from rfl,
      show cumsumAux (some acc) (some x :: xs.map some) =
        optAdd (some acc) (some x) :: cumsumAux (optAdd (some acc) (some x)) (xs.map some)
        from rfl,
      show optAdd (some acc) (some x) = some (acc + x) from rfl,
      ih (acc + x)]
    rfl

theorem percvar_eq_percvarQ (v : List ℚ)
    (h : (sortDesc (absList v)).sum ≠ 0) :
    percvar v = ((percvarQ v).1.map some, (percvarQ v).2.map some) := by
  have hdiv : (fun x => npDiv x (sortDesc (absList v)).sum) =
      fun x => some (x / (sortDesc (absList v)).sum) := by
    funext x
    exact if_neg h
  simp only [percvar, percvarQ, hdiv, cumsumO, cumsumQ]
  rw [show (sortDesc (absList v)).map
        (fun x => some (x / (sortDesc (absList v)).sum)) =
      ((sortDesc (absList v)).map (fun x => x / (sortDesc (absList v)).sum)).map some
      by rw [List.map_map]; rfl]
  rw [cumsumAux_some]

theorem map_div_sorted (l : List ℚ) (t : ℚ) (ht : 0 < t)
    (h : List.Sorted (fun a b => a ≥ b) l) :
    List.Sorted (fun a b => a ≥ b) (l.map (fun x => x / t)) := by
  refine List.Pairwise.map _ ?_ h
  intro a b hab
  exact div_le_div_of_nonneg_right hab ht.le

/-! ### Claims about the profile transform `percvar` -/

/-- C2: for every vector with a nonzero element, the percentage vector of
`percvar` is (the `some`-lift of) a non-increasing rational vector summing
to 1, and the cumulative vector is (the `some`-lift of) a non-decreasing
rational vector whose last element is exactly 1. -/
theorem C2_percvar_sorted_normalized (v : List ℚ) (h : ∃ x ∈ v, x ≠ 0) :
    (percvar v).1 = (percvarQ v).1.map some ∧
      (percvar v).2 = (percvarQ v).2.map some ∧
      List.Sorted (fun a b => a ≥ b) (percvarQ v).1 ∧
      (percvarQ v).1.sum = 1 ∧
      List.Sorted (fun a b => a ≤ b) (percvarQ v).2 ∧
      (percvarQ v).2.getLast? = some 1 := by
  have ht : 0 < (sortDesc (absList v)).sum := total_pos h
  have hbridge := percvar_eq_percvarQ v ht.ne'
  have hpct : (percvarQ v).1 =
      (sortDesc (absList v)).map (fun x => x / (sortDesc (absList v)).sum) := rfl
  have hsum1 : (percvarQ v).1.sum = 1 := by
    rw [hpct, sum_map_div, div_self ht.ne']
  have hnonneg : ∀ x ∈ (percvarQ v).1, 0 ≤ x := by
    intro x hx
    rw [hpct] at hx
    rcases List.mem_map.mp hx with ⟨y, hy, rfl⟩
    exact div_nonneg (sortDesc_absList_nonneg v y hy) ht.le
  have hne : (percvarQ v).1 ≠ [] := by
    rcases h with ⟨x, hx, -⟩
    rw [hpct]
    intro hnil
    have : sortDesc (absList v) = [] := List.map_eq_nil_iff.mp hnil
    have hlen := sortDesc_length (absList v)
    rw [this] at hlen
    simp only [List.length_nil, absList, List.length_map] at hlen
    exact List.not_mem_nil x (List.length_eq_zero.mp hlen.symm ▸ hx)
  refine ⟨congrArg Prod.fst hbridge, congrArg Prod.snd hbridge, ?_, hsum1, ?_, ?_⟩
  · rw [hpct]
    exact map_div_sorted _ _ ht (sortDesc_sorted _)
  · exact (cumsumQAux_sorted_le _ hnonneg 0).1
  · have := cumsumQAux_getLast (percvarQ v).1 hne 0
    rw [show (percvarQ v).2 = cumsumQ (percvarQ v).1 from rfl, cumsumQ, this,
      zero_add, hsum1]

/-- Witness for C2 at `v = [1, 1]`. -/
theorem C2_witness :
    (∃ x ∈ [(1:ℚ), 1], x ≠ 0) ∧
      ((percvar [(1:ℚ), 1]).1 = (percvarQ [(1:ℚ), 1]).1.map some ∧
        (percvar [(1:ℚ), 1]).2 = (percvarQ [(1:ℚ), 1]).2.map some ∧
        List.Sorted (fun a b => a ≥ b) (percvarQ [(1:ℚ), 1]).1 ∧
        (percvarQ [(1:ℚ), 1]).1.sum = 1 ∧
        List.Sorted (fun a b => a ≤ b) (percvarQ [(1:ℚ), 1]).2 ∧
        (percvarQ [(1:ℚ), 1]).2.getLast? = some 1) :=
  ⟨⟨1, by norm_num⟩,
    C2_percvar_sorted_normalized [(1:ℚ), 1] ⟨1, by norm_num⟩⟩

theorem sortDesc_map_mul (l : List ℚ) (k : ℚ) (hk : 0 < k) :
    sortDesc (l.map (fun x => x * k)) = (sortDesc l).map (fun x => x * k) := by
  refine List.eq_of_perm_of_sorted ?_ (sortDesc_sorted _) ?_
  · exact (sortDesc_perm _).trans ((sortDesc_perm l).map _).symm
  · refine List.Pairwise.map _ ?_ (sortDesc_sorted l)
    intro a b hab
    exact mul_le_mul_of_nonneg_right hab hk.le

theorem npDiv_mul_right (x t k : ℚ) (hk : k ≠ 0) :
    npDiv (x * k) (t * k) = npDiv x t := by
  unfold npDiv
  by_cases ht : t = 0
  · simp [ht]
  · rw [if_neg (mul_ne_zero ht hk), if_neg ht, mul_div_mul_right x t hk]

/-- C5: the profile transform is invariant under scaling the input by any
nonzero constant, including negative ones: for every vector with a nonzero
element and every nonzero scalar `c`, `percvar (v * c) = percvar v`, both
the percentage and the cumulative vector. -/
theorem C5_percvar_scale_invariant (v : List ℚ) (c : ℚ)
    (_hv : ∃ x ∈ v, x ≠ 0) (hc : c ≠ 0) :
    percvar (v.map (fun x => x * c)) = percvar v := by
  have hk : (0:ℚ) < |c| := abs_pos.mpr hc
  have hA : absList (v.map (fun x => x * c)) =
      (absList v).map (fun x => x * |c|) := by
    simp only [absList, List.map_map]
    refine List.map_congr_left ?_
    intro x _
    exact abs_mul x c
  have hB : sortDesc (absList (v.map (fun x => x * c))) =
      (sortDesc (absList v)).map (fun x => x * |c|) := by
    rw [hA]
    exact sortDesc_map_mul _ _ hk
  have hC : (sortDesc (absList (v.map (fun x => x * c)))).sum =
      (sortDesc (absList v)).sum * |c| := by
    rw [hB]
    exact sum_map_mul _ _
  have hD : (sortDesc (absList (v.map (fun x => x * c)))).map
        (fun x => npDiv x (sortDesc (absList (v.map (fun x => x * c)))).sum) =
      (sortDesc (absList v)).map
        (fun x => npDiv x (sortDesc (absList v)).sum) := by
    rw [hC, hB, List.map_map]
    refine List.map_congr_left ?_
    intro x _
    exact npDiv_mul_right x _ _ hk.ne'
  show ((sortDesc (absList (v.map (fun x => x * c)))).map
        (fun x => npDiv x (sortDesc (absList (v.map (fun x => x * c)))).sum),
      cumsumO ((sortDesc (absList (v.map (fun x => x * c)))).map
        (fun x => npDiv x (sortDesc (absList (v.map (fun x => x * c)))).sum))) =
    ((sortDesc (absList v)).map (fun x => npDiv x (sortDesc (absList v)).sum),
      cumsumO ((sortDesc (absList v)).map
        (fun x => npDiv x (sortDesc (absList v)).sum)))
  rw [hD]

/-- Witness for C5 at `v = [1, -2]`, `c = -3`. -/
theorem C5_witness :
    ((∃ x ∈ [(1:ℚ), -2], x ≠ 0) ∧ (-3:ℚ) ≠ 0) ∧
      percvar ([(1:ℚ), -2].map (fun x => x * (-3))) = percvar [(1:ℚ), -2] :=
  ⟨⟨⟨1, by norm_num⟩, by norm_num⟩,
    C5_percvar_scale_invariant [(1:ℚ), -2] (-3) ⟨1, by norm_num⟩ (by norm_num)⟩

theorem optAdd_none_right (a : Option ℚ) : optAdd a none = none := by
  cases a <;> rfl

theorem cumsumAux_all_none (l : List (Option ℚ)) (hl : ∀ x ∈ l, x = none) :
    ∀ acc, ∀ y ∈ cumsumAux acc l, y = none := by
  induction l with
  | nil => intro acc y hy; cases hy
  | cons x xs ih =>
    intro acc y hy
    have hx : x = none := hl x (List.mem_cons_self x xs)
    rcases List.mem_cons.mp hy with rfl | hmem
    · rw [hx]; exact optAdd_none_right acc
    · exact ih (fun z hz => hl z (List.mem_cons_of_mem x hz)) _ y hmem

/-- C6 counterexample: the empty vector has absolute-value sum zero, yet
`percvar` neither fails nor produces any NaN on it — it silently returns
the pair of empty vectors. -/
theorem C6_counterexample :
    (absList ([] : List ℚ)).sum = 0 ∧
      percvar ([] : List ℚ) = ([], []) :=
  ⟨rfl, rfl⟩

/-- C6 amended: for every NONEMPTY vector whose absolute values sum to
zero, `percvar` propagates NaN: both returned vectors are nonempty and
every one of their entries is NaN (`none`); no ordinary numeric vector is
returned.  (On the empty vector, however, it silently returns `([], [])`,
see the counterexample.) -/
theorem C6_percvar_zero_sum_propagates_nan (v : List ℚ) (hne : v ≠ [])
    (h0 : (absList v).sum = 0) :
    (percvar v).1 ≠ [] ∧ (∀ x ∈ (percvar v).1, x = none) ∧
      (percvar v).2 ≠ [] ∧ ∀ x ∈ (percvar v).2, x = none := by
  have ht : (sortDesc (absList v)).sum = 0 := by rw [sortDesc_sum]; exact h0
  have hfst : (percvar v).1 =
      (sortDesc (absList v)).map (fun x => npDiv x (sortDesc (absList v)).sum) := rfl
  have hsne : sortDesc (absList v) ≠ [] := by
    intro hnil
    have hlen := sortDesc_length (absList v)
    rw [hnil] at hlen
    simp only [List.length_nil, absList, List.length_map] at hlen
    exact hne (List.length_eq_zero.mp hlen.symm)
  have hallnone : ∀ x ∈ (percvar v).1, x = none := by
    intro x hx
    rw [hfst] at hx
    rcases List.mem_map.mp hx with ⟨y, -, rfl⟩
    rw [ht]
    exact if_pos rfl
  refine ⟨?_, hallnone, ?_, ?_⟩
  · rw [hfst]
    exact fun hnil => hsne (List.map_eq_nil_iff.mp hnil)
  · show cumsumO ((percvar v).1) ≠ []
    rw [cumsumO]
    intro hnil
    have := cumsumAux_length (percvar v).1 (some 0)
    rw [hnil] at this
    have h1 : (percvar v).1 = [] := List.length_eq_zero.mp this.symm
    rw [hfst] at h1
    exact hsne (List.map_eq_nil_iff.mp h1)
  · show ∀ x ∈ cumsumO ((percvar v).1), x = none
    exact fun x hx => cumsumAux_all_none _ hallnone (some 0) x hx

/-- Witness for the amended C6 at `v = [0]`. -/
theorem C6_witness :
    (([(0:ℚ)] ≠ ([] : List ℚ)) ∧ (absList [(0:ℚ)]).sum = 0) ∧
      ((percvar [(0:ℚ)]).1 ≠ [] ∧ (∀ x ∈ (percvar [(0:ℚ)]).1, x = none) ∧
        (percvar [(0:ℚ)]).2 ≠ [] ∧ ∀ x ∈ (percvar [(0:ℚ)]).2, x = none) :=
  ⟨⟨by simp, by simp [absList]⟩,
    C6_percvar_zero_sum_propagates_nan [(0:ℚ)] (by simp) (by simp [absList])⟩

theorem percvar_congr_perm {l₁ l₂ : List ℚ} (h : l₁.Perm l₂) :
    percvar l₁ = percvar l₂ := by
  have hsort : sortDesc (absList l₁) = sortDesc (absList l₂) := by
    refine List.eq_of_perm_of_sorted ?_ (sortDesc_sorted _) (sortDesc_sorted _)
    exact (sortDesc_perm _).trans (((h.map _).trans (sortDesc_perm _).symm))
  show ((sortDesc (absList l₁)).map (fun x => npDiv x (sortDesc (absList l₁)).sum),
      cumsumO ((sortDesc (absList l₁)).map
        (fun x => npDiv x (sortDesc (absList l₁)).sum))) =
    ((sortDesc (absList l₂)).map (fun x => npDiv x (sortDesc (absList l₂)).sum),
      cumsumO ((sortDesc (absList l₂)).map
        (fun x => npDiv x (sortDesc (absList l₂)).sum)))
  rw [hsort]

/-- C7: whenever the derivation rule holds — the covariance-path eigenvalue
list is a permutation of the scaled squared singular values `s²/(n−1)` of
the SVD path — `percvar` produces identical percentage and cumulative
vectors on the two lists (exactly, in exact arithmetic): the transform
depends only on the multiset of magnitudes. -/
theorem C7_covariance_svd_paths_agree (e s : List ℚ) (n : ℕ)
    (h : e.Perm (scaledSqSingular n s)) :
    percvar e = percvar (scaledSqSingular n s) :=
  percvar_congr_perm h

/-- Witness for C7: eigenvalue list `[4, 1]`, singular values `[1, 2]` of a
two-row centered matrix, whose scaled squares are `[1, 4]`. -/
theorem C7_witness :
    ([(4:ℚ), 1].Perm (scaledSqSingular 2 [(1:ℚ), 2])) ∧
      percvar [(4:ℚ), 1] = percvar (scaledSqSingular 2 [(1:ℚ), 2]) := by
  have he : scaledSqSingular 2 [(1:ℚ), 2] = [1, 4] := by
    norm_num [scaledSqSingular]
  have hp : [(4:ℚ), 1].Perm (scaledSqSingular 2 [(1:ℚ), 2]) := by
    rw [he]
    exact List.Perm.swap 1 4 []
  exact ⟨hp, C7_covariance_svd_paths_agree [(4:ℚ), 1] [(1:ℚ), 2] 2 hp⟩

/-! ### Concrete scenarios -/

/-- C8: a concrete centered matrix with `n = 5 > 1` rows on which the
raw-singular-value profile differs from the covariance-eigenvalue profile.
`xNeg` has zero column sums (centered); `Xᵀ·X = [[4,0],[0,1]]` is diagonal,
so the singular values of `xNeg` are `[2, 1]`; the covariance matrix
`Xᵀ·X/(n−1) = [[1,0],[0,1/4]]` is diagonal, so its eigenvalues are
`[1, 1/4]`, which equal `s²/(n−1)`; and `percvar` on the raw singular
values `[2, 1]` differs from `percvar` on the eigenvalues `[1, 1/4]`:
skipping the squaring/rescaling step changes the output. -/
theorem C8_raw_singular_values_differ :
    xNeg.length = 5 ∧
      colSums xNeg = [0, 0] ∧
      matMul (matT xNeg) xNeg = [[4, 0], [0, 1]] ∧
      covMatrix xNeg = [[1, 0], [0, 1/4]] ∧
      scaledSqSingular 5 [(2:ℚ), 1] = [1, 1/4] ∧
      percvar [(2:ℚ), 1] ≠ percvar [(1:ℚ), 1/4] := by
  refine ⟨rfl, ?_, ?_, ?_, ?_, ?_⟩
  · norm_num [colSums, matT, matCol, xNeg, List.range_succ]
  · norm_num [matMul, matT, matCol, dotQ, xNeg, List.range_succ]
  · norm_num [covMatrix, matMul, matT, matCol, dotQ, xNeg, List.range_succ]
  · norm_num [scaledSqSingular]
  · norm_num [percvar, sortDesc, absList, cumsumO, cumsumAux, optAdd, npDiv,
      List.insertionSort, List.orderedInsert, abs_of_pos, abs_of_nonneg]

/-- C9 counterexample: on the cumulative vector of the wine eigenvalue
list, threshold 0.90 is first met at raw index 7 — the 8th position
counting from 1, not the 7th — and threshold 0.40 is first met at raw
index 1 — the 2nd position, not the 1st. -/
theorem C9_counterexample :
    perck (percvarQ wineEig).2 (90/100) ≠ 6 ∧
      perck (percvarQ wineEig).2 (40/100) ≠ 0 := by
  constructor <;>
    norm_num [wineEig, percvarQ, sortDesc, absList, cumsumQ, cumsumQAux,
      perck, perckGo, List.insertionSort, List.orderedInsert,
      abs_of_pos, abs_of_nonneg]

/-- C9 amended: on the cumulative vector of the wine eigenvalue list (whose
`some`-lift is the cumulative vector `percvar` returns), the cumulative
value first reaches 0.90 at raw index 7, the 8th position counting from 1
(`perck` returns the raw index 7), and first reaches 0.40 at raw index 1,
the 2nd position (`perck` returns 1). -/
theorem C9_wine_thresholds :
    (percvar wineEig).2 = (percvarQ wineEig).2.map some ∧
      (percvarQ wineEig).2.getD 6 0 < 90/100 ∧
      (90:ℚ)/100 ≤ (percvarQ wineEig).2.getD 7 0 ∧
      perck (percvarQ wineEig).2 (90/100) = 7 ∧
      (percvarQ wineEig).2.getD 0 0 < 40/100 ∧
      (40:ℚ)/100 ≤ (percvarQ wineEig).2.getD 1 0 ∧
      perck (percvarQ wineEig).2 (40/100) = 1 := by
  refine ⟨?_, ?_, ?_, ?_, ?_, ?_, ?_⟩ <;>
    norm_num [wineEig, percvar, percvarQ, sortDesc, absList, cumsumQ,
      cumsumQAux, cumsumO, cumsumAux, optAdd, npDiv, perck, perckGo,
      List.insertionSort, List.orderedInsert, abs_of_pos, abs_of_nonneg]
